import Mathlib

/-!
# Verification of smallchat-extended

Shallow embedding of the circular buffer (`circular_buffer.c`) and the chat
server core (`smallchat-server.c`): client registry, broadcast, message
framing and command processing, together with proofs of the specified
properties.

Bytes are modelled as `Nat`; C `int` results that may be negative
(`circbuf_len`, `circbuf_space_left`, `maxclient`) are modelled as `Int`.
-/

namespace Smallchat

/-- `struct Circbuf` from `circular_buffer.h`: a byte buffer plus write
index, read index and total size.  `buf` is the malloc'd array, modelled
as a list of length `size`. -/
structure Circbuf where
  buf : List Nat
  write_idx : Nat
  read_idx : Nat
  size : Nat
  deriving Repr, DecidableEq

/-- `circbuf_alloc`: fresh buffer with both indices 0.  The C buffer is
uninitialized; its contents are modelled as zeros (no property depends on
the initial contents). -/
def circbuf_alloc (size : Nat) : Circbuf :=
  { buf := List.replicate size 0, write_idx := 0, read_idx := 0, size := size }

/-- `circbuf_push`: fails (returns false) when `(write_idx+1) % size ==
read_idx`; otherwise stores `data` at `write_idx` and advances it. -/
def circbuf_push (cb : Circbuf) (data : Nat) : Circbuf × Bool :=
  if (cb.write_idx + 1) % cb.size = cb.read_idx then (cb, false)
  else ({ cb with buf := cb.buf.set cb.write_idx data,
                  write_idx := (cb.write_idx + 1) % cb.size }, true)

/-- `circbuf_pop`: takes the current value of the destination byte `data`
(the C code writes through a pointer); on failure (`read_idx == write_idx`)
the destination is left unchanged, otherwise the byte at `read_idx` is
returned and `read_idx` advances. -/
def circbuf_pop (cb : Circbuf) (data : Nat) : Circbuf × Nat × Bool :=
  if cb.read_idx = cb.write_idx then (cb, data, false)
  else ({ cb with read_idx := (cb.read_idx + 1) % cb.size },
        cb.buf.getD cb.read_idx 0, true)

/-- Loop of `circbuf_push_from_linear`: `for (i = 0; i < n && i < cb->size-1;
i++)`, pushing `src[i]` and returning `i` at the first failed push.  The
remaining source bytes are the list `src`; `i` is the loop counter. -/
def pushLinGo (cb : Circbuf) (src : List Nat) (i : Nat) : Circbuf × Nat :=
  match src with
  | [] => (cb, i)
  | x :: xs =>
    if i < cb.size - 1 then
      let p := circbuf_push cb x
      if p.2 then pushLinGo p.1 xs (i + 1) else (p.1, i)
    else (cb, i)

/-- `circbuf_push_from_linear(cb, src, n)` where `src` is the list of the
`n` bytes: returns the new buffer and the number of bytes pushed. -/
def circbuf_push_from_linear (cb : Circbuf) (src : List Nat) : Circbuf × Nat :=
  pushLinGo cb src 0

/-- Loop of `circbuf_pop_to_linear`: pops into `dest[i]` for `i = 0..n-1`,
returning at the first failed pop.  `k` is the number of iterations left
(`n - i`); a failed pop leaves `dest` untouched. -/
def popLinGo (dest : List Nat) (cb : Circbuf) (i : Nat) : Nat → List Nat × Circbuf × Nat
  | 0 => (dest, cb, i)
  | k + 1 =>
    let p := circbuf_pop cb (dest.getD i 0)
    if p.2.2 then popLinGo (dest.set i p.2.1) p.1 (i + 1) k
    else (dest, cb, i)

/-- `circbuf_pop_to_linear(dest, cb, n)`: returns the updated destination
array, the new buffer, and the number of bytes popped. -/
def circbuf_pop_to_linear (dest : List Nat) (cb : Circbuf) (n : Nat) :
    List Nat × Circbuf × Nat :=
  popLinGo dest cb 0 n

/-- `circbuf_empty`: discards the content by setting `read_idx = write_idx`. -/
def circbuf_empty (cb : Circbuf) : Circbuf :=
  { cb with read_idx := cb.write_idx }

/-- `circbuf_len`: number of stored elements, computed exactly as in the C
source (as a C `int`, hence `Int`). -/
def circbuf_len (cb : Circbuf) : Int :=
  if cb.write_idx = cb.read_idx then 0
  else if cb.write_idx > cb.read_idx then (cb.write_idx : Int) - cb.read_idx
  else (cb.write_idx : Int) - cb.read_idx + cb.size

/-- `circbuf_size`. -/
def circbuf_size (cb : Circbuf) : Nat := cb.size

/-- `circbuf_space_left = size - 1 - len`. -/
def circbuf_space_left (cb : Circbuf) : Int :=
  (cb.size : Int) - 1 - circbuf_len cb

/-! ## Abstraction: the buffer's logical content as a list -/

/-- Well-formedness of a `Circbuf`: the backing array has length `size`
and both indices are in range. -/
def Valid (cb : Circbuf) : Prop :=
  cb.buf.length = cb.size ∧ cb.read_idx < cb.size ∧ cb.write_idx < cb.size

instance (cb : Circbuf) : Decidable (Valid cb) := by
  unfold Valid; infer_instance

/-- The stored-element count as a natural number:
`(write_idx + size - read_idx) % size`. -/
def clen (cb : Circbuf) : Nat :=
  (cb.write_idx + cb.size - cb.read_idx) % cb.size

/-- The logical content of the buffer: the `clen cb` bytes starting at
`read_idx`, in pop order. -/
def content (cb : Circbuf) : List Nat :=
  (List.range (clen cb)).map (fun i => cb.buf.getD ((cb.read_idx + i) % cb.size) 0)

theorem length_content (cb : Circbuf) : (content cb).length = clen cb := by
  simp [content]

/-- Reduce `a % N` when `a < 2 * N`: the only mod fact the development
needs, letting `omega` do the rest. -/
theorem two_mod {N : Nat} (a : Nat) (h : a < 2 * N) :
    a % N = if a < N then a else a - N := by
  split
  · exact Nat.mod_eq_of_lt (by assumption)
  · have hN : 0 < N := by omega
    have h1 : N ≤ a := by omega
    rw [Nat.mod_eq_sub_mod h1, Nat.mod_eq_of_lt (by omega)]

/-- `i ↦ (r + i) % N` is injective on `[0, N)`. -/
theorem add_mod_inj {N r : Nat} (hr : r < N) {i j : Nat} (hi : i < N) (hj : j < N)
    (h : (r + i) % N = (r + j) % N) : i = j := by
  rw [two_mod (r + i) (by omega), two_mod (r + j) (by omega)] at h
  split_ifs at h <;> omega

theorem clen_lt_size (cb : Circbuf) (h : Valid cb) : clen cb < cb.size := by
  obtain ⟨-, hr, hw⟩ := h
  exact Nat.mod_lt _ (by omega)

/-- Under validity, `circbuf_len` agrees with the `Nat`-valued `clen`. -/
theorem circbuf_len_eq_clen (cb : Circbuf) (h : Valid cb) :
    circbuf_len cb = (clen cb : Int) := by
  obtain ⟨-, hr, hw⟩ := h
  unfold circbuf_len clen
  rw [two_mod (cb.write_idx + cb.size - cb.read_idx) (by omega)]
  split_ifs <;> omega

/-- The write index sits just past the content: `write_idx = (read_idx +
clen) % size`. -/
theorem write_idx_eq (cb : Circbuf) (h : Valid cb) :
    cb.write_idx = (cb.read_idx + clen cb) % cb.size := by
  obtain ⟨-, hr, hw⟩ := h
  unfold clen
  rw [two_mod (cb.write_idx + cb.size - cb.read_idx) (by omega)]
  by_cases hlt : cb.write_idx + cb.size - cb.read_idx < cb.size
  · rw [if_pos hlt,
      two_mod (cb.read_idx + (cb.write_idx + cb.size - cb.read_idx)) (by omega)]
    split_ifs <;> omega
  · rw [if_neg hlt,
      two_mod (cb.read_idx + (cb.write_idx + cb.size - cb.read_idx - cb.size)) (by omega)]
    split_ifs <;> omega

/-! ## List helpers -/

theorem getD_set_self {α : Type} (l : List α) (i : Nat) (a d : α) (h : i < l.length) :
    (l.set i a).getD i d = a := by
  induction l generalizing i with
  | nil => simp at h
  | cons x xs ih =>
    cases i with
    | zero => rfl
    | succ n => simpa [List.set, List.getD_cons_succ] using ih n (by simpa using h)

theorem getD_set_of_ne {α : Type} (l : List α) {i j : Nat} (a d : α) (h : i ≠ j) :
    (l.set i a).getD j d = l.getD j d := by
  induction l generalizing i j with
  | nil => rfl
  | cons x xs ih =>
    cases i with
    | zero =>
      cases j with
      | zero => exact absurd rfl h
      | succ m => rfl
    | succ n =>
      cases j with
      | zero => rfl
      | succ m =>
        simpa [List.set, List.getD_cons_succ] using ih (i := n) (j := m) (fun hh => h (by omega))

theorem set_take_succ {α : Type} (l : List α) (i : Nat) (a : α) (h : i < l.length) :
    (l.set i a).take (i + 1) = l.take i ++ [a] := by
  induction l generalizing i with
  | nil => simp at h
  | cons x xs ih =>
    cases i with
    | zero => simp [List.set]
    | succ n => simp [List.set, ih n (by simpa using h)]

theorem set_eq_take_cons_drop {α : Type} (l : List α) (i : Nat) (a : α)
    (h : i < l.length) :
    l.set i a = l.take i ++ a :: l.drop (i + 1) := by
  induction l generalizing i with
  | nil => simp at h
  | cons x xs ih =>
    cases i with
    | zero => simp [List.set]
    | succ n => simp [List.set, ih n (by simpa using h)]

theorem set_drop_of_lt {α : Type} (l : List α) {i j : Nat} (a : α) (h : i < j) :
    (l.set i a).drop j = l.drop j := by
  induction l generalizing i j with
  | nil => rfl
  | cons x xs ih =>
    cases i with
    | zero =>
      cases j with
      | zero => omega
      | succ m => rfl
    | succ n =>
      cases j with
      | zero => omega
      | succ m => simpa [List.set] using ih (i := n) (j := m) (by omega)

/-! ## Push/pop versus the content abstraction -/

theorem clen_ne_zero (cb : Circbuf) (hv : Valid cb) (hne : cb.read_idx ≠ cb.write_idx) :
    clen cb ≠ 0 := by
  obtain ⟨-, hr, hw⟩ := hv
  unfold clen
  rw [two_mod (cb.write_idx + cb.size - cb.read_idx) (by omega)]
  split_ifs <;> omega

theorem content_of_empty (cb : Circbuf) (h : cb.read_idx = cb.write_idx) :
    content cb = [] := by
  unfold content clen
  rw [h]
  have h2 : cb.write_idx + cb.size - cb.write_idx = cb.size := by omega
  rw [h2, Nat.mod_self]
  rfl

theorem clen_pop (cb : Circbuf) (hv : Valid cb) (hne : cb.read_idx ≠ cb.write_idx) :
    clen { cb with read_idx := (cb.read_idx + 1) % cb.size } = clen cb - 1 := by
  obtain ⟨-, hr, hw⟩ := hv
  dsimp only [clen]
  rw [two_mod (cb.read_idx + 1) (by omega)]
  by_cases h1 : cb.read_idx + 1 < cb.size
  · rw [if_pos h1,
      two_mod (cb.write_idx + cb.size - (cb.read_idx + 1)) (by omega),
      two_mod (cb.write_idx + cb.size - cb.read_idx) (by omega)]
    split_ifs <;> omega
  · rw [if_neg h1,
      two_mod (cb.write_idx + cb.size - (cb.read_idx + 1 - cb.size)) (by omega),
      two_mod (cb.write_idx + cb.size - cb.read_idx) (by omega)]
    split_ifs <;> omega

/-- Decomposition of a nonempty buffer: its content is the byte at
`read_idx` followed by the content after advancing `read_idx`. -/
theorem content_eq_cons (cb : Circbuf) (hv : Valid cb)
    (hne : cb.read_idx ≠ cb.write_idx) :
    content cb =
      cb.buf.getD cb.read_idx 0 ::
        content { cb with read_idx := (cb.read_idx + 1) % cb.size } := by
  have h0 := clen_ne_zero cb hv hne
  have hp := clen_pop cb hv hne
  unfold content
  dsimp only
  rw [hp]
  obtain ⟨k, hk⟩ : ∃ k, clen cb = k + 1 := ⟨clen cb - 1, by omega⟩
  rw [hk]
  simp only [Nat.add_sub_cancel]
  rw [List.range_succ_eq_map, List.map_cons, List.map_map]
  congr 1
  · rw [Nat.add_zero, Nat.mod_eq_of_lt hv.2.1]
  · apply List.map_congr_left
    intro i _
    dsimp only [Function.comp]
    simp only [Nat.succ_eq_add_one]
    rw [Nat.mod_add_mod]
    have h3 : cb.read_idx + 1 + i = cb.read_idx + (i + 1) := by omega
    rw [h3]

theorem circbuf_pop_cons (cb : Circbuf) (d : Nat) {x : Nat} {xs : List Nat}
    (hv : Valid cb) (h : content cb = x :: xs) :
    ∃ cb', circbuf_pop cb d = (cb', x, true) ∧ Valid cb' ∧ content cb' = xs ∧
      cb'.size = cb.size := by
  have hne : cb.read_idx ≠ cb.write_idx := by
    intro he
    rw [content_of_empty cb he] at h
    exact List.noConfusion h
  have hdec := content_eq_cons cb hv hne
  rw [h] at hdec
  have hpos : 0 < cb.size := Nat.lt_of_le_of_lt (Nat.zero_le _) hv.2.1
  refine ⟨{ cb with read_idx := (cb.read_idx + 1) % cb.size }, ?_, ?_, ?_, rfl⟩
  · unfold circbuf_pop
    rw [if_neg hne]
    have hx : cb.buf.getD cb.read_idx 0 = x := (List.cons.injEq _ _ _ _).mp hdec.symm |>.1
    rw [hx]
  · exact ⟨hv.1, Nat.mod_lt _ hpos, hv.2.2⟩
  · exact ((List.cons.injEq _ _ _ _).mp hdec.symm).2.symm ▸ rfl

/-- A push into a buffer with at least two free slots cannot hit the
full test. -/
theorem push_not_full (cb : Circbuf) (hv : Valid cb) (hlt : clen cb < cb.size - 1) :
    (cb.write_idx + 1) % cb.size ≠ cb.read_idx := by
  have hweq := write_idx_eq cb hv
  have hcl := clen_lt_size cb hv
  obtain ⟨-, hr, hw⟩ := hv
  intro hcontra
  rw [hweq, Nat.mod_add_mod] at hcontra
  rw [two_mod (cb.read_idx + clen cb + 1) (by omega)] at hcontra
  split_ifs at hcontra <;> omega

theorem clen_push (b : List Nat) (cb : Circbuf) (hv : Valid cb)
    (hnf : (cb.write_idx + 1) % cb.size ≠ cb.read_idx) :
    clen { cb with buf := b, write_idx := (cb.write_idx + 1) % cb.size } =
      clen cb + 1 := by
  obtain ⟨-, hr, hw⟩ := hv
  dsimp only [clen]
  rw [two_mod (cb.write_idx + 1) (by omega)] at hnf ⊢
  by_cases h1 : cb.write_idx + 1 < cb.size
  · rw [if_pos h1] at hnf ⊢
    rw [two_mod (cb.write_idx + 1 + cb.size - cb.read_idx) (by omega),
        two_mod (cb.write_idx + cb.size - cb.read_idx) (by omega)]
    split_ifs <;> omega
  · rw [if_neg h1] at hnf ⊢
    rw [two_mod (cb.write_idx + 1 - cb.size + cb.size - cb.read_idx) (by omega),
        two_mod (cb.write_idx + cb.size - cb.read_idx) (by omega)]
    split_ifs <;> omega

theorem circbuf_push_succ (cb : Circbuf) (d : Nat) (hv : Valid cb)
    (hlt : clen cb < cb.size - 1) :
    ∃ cb', circbuf_push cb d = (cb', true) ∧ Valid cb' ∧
      content cb' = content cb ++ [d] ∧ cb'.size = cb.size ∧
      cb'.read_idx = cb.read_idx := by
  have hnf := push_not_full cb hv hlt
  have hweq := write_idx_eq cb hv
  have hcl := clen_lt_size cb hv
  have hpos : 0 < cb.size := Nat.lt_of_le_of_lt (Nat.zero_le _) hv.2.1
  refine ⟨⟨cb.buf.set cb.write_idx d, (cb.write_idx + 1) % cb.size,
    cb.read_idx, cb.size⟩, ?_, ?_, ?_, rfl, rfl⟩
  · unfold circbuf_push
    rw [if_neg hnf]
  · exact ⟨by simpa using hv.1, hv.2.1, Nat.mod_lt _ hpos⟩
  · have hc := clen_push (cb.buf.set cb.write_idx d) cb hv hnf
    unfold content
    dsimp only
    rw [hc, List.range_succ, List.map_append]
    congr 1
    · apply List.map_congr_left
      intro i hi
      rw [List.mem_range] at hi
      apply getD_set_of_ne
      intro hcontra
      have hi' : i < cb.size := by omega
      have := add_mod_inj hv.2.1 hcl hi' (by rw [← hweq, hcontra])
      omega
    · simp only [List.map_cons, List.map_nil]
      rw [← hweq, getD_set_self _ _ _ _ (by rw [hv.1]; exact hv.2.2)]

/-! ## Bulk transfer -/

theorem pushLinGo_all (src : List Nat) : ∀ (cb : Circbuf) (i : Nat), Valid cb →
    clen cb + src.length ≤ cb.size - 1 → i + src.length ≤ cb.size - 1 →
    ∃ cb', pushLinGo cb src i = (cb', i + src.length) ∧ Valid cb' ∧
      content cb' = content cb ++ src ∧ cb'.size = cb.size := by
  induction src with
  | nil =>
    intro cb i hv _ _
    exact ⟨cb, rfl, hv, by simp, rfl⟩
  | cons x xs ih =>
    intro cb i hv h1 h2
    simp only [List.length_cons] at h1 h2
    have hlt : clen cb < cb.size - 1 := by omega
    obtain ⟨cb1, hpush, hv1, hcont1, hsz1, hrd1⟩ := circbuf_push_succ cb x hv hlt
    have hcl1 : clen cb1 = clen cb + 1 := by
      have hA := length_content cb1
      rw [hcont1, List.length_append, length_content] at hA
      simpa using hA.symm
    obtain ⟨cb', hrec, hv', hcont', hsz'⟩ :=
      ih cb1 (i + 1) hv1 (by rw [hcl1, hsz1]; omega) (by rw [hsz1]; omega)
    refine ⟨cb', ?_, hv', ?_, by rw [hsz', hsz1]⟩
    · have hidx : i + (xs.length + 1) = i + 1 + xs.length := by omega
      simp only [popLinGo, pushLinGo, List.length_cons, hidx]
      rw [if_pos (show i < cb.size - 1 by omega)]
      simp only [hpush]
      exact hrec
    · rw [hcont', hcont1, List.append_assoc]
      rfl

theorem popLinGo_all : ∀ (n : Nat) (dest : List Nat) (cb : Circbuf) (i : Nat),
    Valid cb → n ≤ (content cb).length → i + n ≤ dest.length →
    ∃ cb', popLinGo dest cb i n =
      (dest.take i ++ (content cb).take n ++ dest.drop (i + n), cb', i + n) ∧
      Valid cb' ∧ content cb' = (content cb).drop n ∧ cb'.size = cb.size := by
  intro n
  induction n with
  | zero =>
    intro dest cb i hv _ _
    refine ⟨cb, ?_, hv, by simp, rfl⟩
    simp [popLinGo]
  | succ k ih =>
    intro dest cb i hv h1 h2
    obtain ⟨x, xs, hx⟩ : ∃ x xs, content cb = x :: xs := by
      cases hcc : content cb with
      | nil => rw [hcc] at h1; simp at h1
      | cons a l => exact ⟨a, l, rfl⟩
    rw [hx] at h1 ⊢
    simp only [List.length_cons] at h1
    obtain ⟨cb1, hpop, hv1, hcont1, hsz1⟩ := circbuf_pop_cons cb (dest.getD i 0) hv hx
    have hlen : i < dest.length := by omega
    obtain ⟨cb', hrec, hv', hcont', hsz'⟩ := ih (dest.set i x) cb1 (i + 1) hv1
      (by rw [hcont1]; omega) (by rw [List.length_set]; omega)
    refine ⟨cb', ?_, hv', ?_, by rw [hsz', hsz1]⟩
    · have hidx : i + (k + 1) = i + 1 + k := by omega
      simp only [popLinGo, hidx]
      rw [hpop]
      simp only [if_true]
      rw [hrec, hcont1, set_take_succ dest i x hlen, set_drop_of_lt dest x (by omega)]
      simp [List.append_assoc]
    · rw [hcont', hcont1]
      rfl

/-- `C7`: pushing into a full buffer (`(write_idx+1) % size == read_idx`)
returns failure and leaves the state unchanged; popping an empty buffer
(`read_idx == write_idx`) returns failure, leaves the state unchanged and
does not write the destination byte. -/
theorem push_full_pop_empty_no_mutation (cb : Circbuf) (d d0 : Nat) :
    ((cb.write_idx + 1) % cb.size = cb.read_idx → circbuf_push cb d = (cb, false)) ∧
    (cb.read_idx = cb.write_idx → circbuf_pop cb d0 = (cb, d0, false)) := by
  constructor
  · intro h
    unfold circbuf_push
    rw [if_pos h]
  · intro h
    unfold circbuf_pop
    rw [if_pos h]

/-- Witness for `C7`: a concrete full buffer rejects a push unchanged, and a
concrete empty buffer rejects a pop unchanged. -/
theorem push_full_pop_empty_no_mutation_witness :
    ((3 : Nat) + 1) % 5 = 4 ∧
    circbuf_push ⟨[9, 9, 9, 9, 9], 3, 4, 5⟩ 7 = (⟨[9, 9, 9, 9, 9], 3, 4, 5⟩, false) ∧
    circbuf_pop ⟨[9, 9, 9, 9, 9], 2, 2, 5⟩ 6 = (⟨[9, 9, 9, 9, 9], 2, 2, 5⟩, 6, false) :=
  ⟨by decide,
   (push_full_pop_empty_no_mutation ⟨[9, 9, 9, 9, 9], 3, 4, 5⟩ 7 6).1 (by decide),
   (push_full_pop_empty_no_mutation ⟨[9, 9, 9, 9, 9], 2, 2, 5⟩ 7 6).2 (by decide)⟩

/-- `C8` counterexample: the round-trip claim quantifies over every buffer
state, but when the buffer already holds a byte, `popToLinear` yields the
older buffered byte first, not the freshly pushed one.  Here the buffer
holds byte `120`, has remaining capacity `2 ≥ 1`, yet pushing `[97]` and
popping one byte returns `[120] ≠ [97]`. -/
theorem roundtrip_counterexample :
    Valid (⟨[120, 0, 0, 0], 1, 0, 4⟩ : Circbuf) ∧
    (1 : Int) ≤ circbuf_space_left ⟨[120, 0, 0, 0], 1, 0, 4⟩ ∧
    (circbuf_pop_to_linear [0]
      (circbuf_push_from_linear ⟨[120, 0, 0, 0], 1, 0, 4⟩ [97]).1 1).1 = [120] ∧
    ([120] : List Nat) ≠ [97] := by
  refine ⟨by decide, by decide, ?_, by decide⟩
  rfl

/-- `C8` amended: starting from an *empty* buffer with remaining capacity at
least `n = src.length`, `pushFromLinear` copies all `n` bytes and a
subsequent `popToLinear` of `n` bytes reproduces `src` in order, leaving the
buffer empty again. -/
theorem roundtrip_of_empty (cb : Circbuf) (src dest : List Nat) (hv : Valid cb)
    (hemp : cb.read_idx = cb.write_idx)
    (hspace : (src.length : Int) ≤ circbuf_space_left cb)
    (hdest : src.length ≤ dest.length) :
    ∃ cb1 cb2,
      circbuf_push_from_linear cb src = (cb1, src.length) ∧
      circbuf_pop_to_linear dest cb1 src.length =
        (src ++ dest.drop src.length, cb2, src.length) ∧
      content cb2 = [] := by
  have hc0 : content cb = [] := content_of_empty cb hemp
  have hclen0 : clen cb = 0 := by
    have := length_content cb
    rw [hc0] at this
    simpa using this.symm
  have hlen := circbuf_len_eq_clen cb hv
  rw [hclen0] at hlen
  unfold circbuf_space_left at hspace
  rw [hlen] at hspace
  have hsz : src.length ≤ cb.size - 1 := by omega
  obtain ⟨cb1, hpush, hv1, hcont1, hsz1⟩ :=
    pushLinGo_all src cb 0 hv (by omega) (by omega)
  rw [hc0, List.nil_append] at hcont1
  obtain ⟨cb2, hpop, hv2, hcont2, hsz2⟩ :=
    popLinGo_all src.length dest cb1 0 hv1
      (by rw [hcont1]) (by omega)
  refine ⟨cb1, cb2, ?_, ?_, ?_⟩
  · unfold circbuf_push_from_linear
    rw [hpush]
    simp
  · unfold circbuf_pop_to_linear
    rw [hpop, hcont1]
    simp
  · rw [hcont2, hcont1, List.drop_length]

/-- Witness for the amended `C8`: round-tripping `[7, 9]` through a fresh
4-byte buffer reproduces `[7, 9]`. -/
theorem roundtrip_of_empty_witness :
    ∃ cb1 cb2,
      circbuf_push_from_linear (circbuf_alloc 4) [7, 9] = (cb1, 2) ∧
      circbuf_pop_to_linear [0, 0] cb1 2 = ([7, 9], cb2, 2) ∧
      content cb2 = [] := by
  have h := roundtrip_of_empty (circbuf_alloc 4) [7, 9] [0, 0]
    (by decide) rfl (by decide) (by decide)
  simpa using h

/-! ## Reachable buffer states (C9) -/

/-- States reachable from a freshly allocated buffer of total capacity `N`
by any sequence of push, pop, bulk push, bulk pop and clear operations. -/
inductive CbReach (N : Nat) : Circbuf → Prop
  | init : CbReach N (circbuf_alloc N)
  | push (cb : Circbuf) (d : Nat) : CbReach N cb → CbReach N (circbuf_push cb d).1
  | pop (cb : Circbuf) (d : Nat) : CbReach N cb → CbReach N (circbuf_pop cb d).1
  | pushLin (cb : Circbuf) (src : List Nat) :
      CbReach N cb → CbReach N (circbuf_push_from_linear cb src).1
  | popLin (dest : List Nat) (cb : Circbuf) (n : Nat) :
      CbReach N cb → CbReach N (circbuf_pop_to_linear dest cb n).2.1
  | clear (cb : Circbuf) : CbReach N cb → CbReach N (circbuf_empty cb)

theorem valid_push_op (cb : Circbuf) (d : Nat) (hv : Valid cb) :
    Valid (circbuf_push cb d).1 ∧ (circbuf_push cb d).1.size = cb.size := by
  have hpos : 0 < cb.size := Nat.lt_of_le_of_lt (Nat.zero_le _) hv.2.1
  unfold circbuf_push
  split_ifs
  · exact ⟨hv, rfl⟩
  · exact ⟨⟨by simpa using hv.1, hv.2.1, Nat.mod_lt _ hpos⟩, rfl⟩

theorem valid_pop_op (cb : Circbuf) (d : Nat) (hv : Valid cb) :
    Valid (circbuf_pop cb d).1 ∧ (circbuf_pop cb d).1.size = cb.size := by
  have hpos : 0 < cb.size := Nat.lt_of_le_of_lt (Nat.zero_le _) hv.2.1
  unfold circbuf_pop
  split_ifs
  · exact ⟨hv, rfl⟩
  · exact ⟨⟨hv.1, Nat.mod_lt _ hpos, hv.2.2⟩, rfl⟩

theorem valid_pushLinGo (src : List Nat) : ∀ (cb : Circbuf) (i : Nat), Valid cb →
    Valid (pushLinGo cb src i).1 ∧ (pushLinGo cb src i).1.size = cb.size := by
  induction src with
  | nil => intro cb i hv; exact ⟨hv, rfl⟩
  | cons x xs ih =>
    intro cb i hv
    simp only [pushLinGo]
    split_ifs with h1 h2
    · have hp := valid_push_op cb x hv
      have := ih (circbuf_push cb x).1 (i + 1) hp.1
      exact ⟨this.1, this.2.trans hp.2⟩
    · exact ⟨(valid_push_op cb x hv).1, (valid_push_op cb x hv).2⟩
    · exact ⟨hv, rfl⟩

theorem valid_popLinGo : ∀ (n : Nat) (dest : List Nat) (cb : Circbuf) (i : Nat),
    Valid cb →
    Valid (popLinGo dest cb i n).2.1 ∧ (popLinGo dest cb i n).2.1.size = cb.size := by
  intro n
  induction n with
  | zero => intro dest cb i hv; exact ⟨hv, rfl⟩
  | succ k ih =>
    intro dest cb i hv
    simp only [popLinGo]
    split_ifs with h1
    · have hp := valid_pop_op cb (dest.getD i 0) hv
      have := ih (dest.set i (circbuf_pop cb (dest.getD i 0)).2.1)
        (circbuf_pop cb (dest.getD i 0)).1 (i + 1) hp.1
      exact ⟨this.1, this.2.trans hp.2⟩
    · exact ⟨hv, rfl⟩

theorem cbreach_valid {N : Nat} {cb : Circbuf} (h : CbReach N cb) (hN : 1 ≤ N) :
    Valid cb ∧ cb.size = N := by
  induction h with
  | init => exact ⟨⟨by simp [circbuf_alloc], by simpa [circbuf_alloc] using hN,
      by simpa [circbuf_alloc] using hN⟩, rfl⟩
  | push cb d _ ih =>
    have hp := valid_push_op cb d ih.1
    exact ⟨hp.1, hp.2.trans ih.2⟩
  | pop cb d _ ih =>
    have hp := valid_pop_op cb d ih.1
    exact ⟨hp.1, hp.2.trans ih.2⟩
  | pushLin cb src _ ih =>
    have hp := valid_pushLinGo src cb 0 ih.1
    exact ⟨hp.1, hp.2.trans ih.2⟩
  | popLin dest cb n _ ih =>
    have hp := valid_popLinGo n dest cb 0 ih.1
    exact ⟨hp.1, hp.2.trans ih.2⟩
  | clear cb _ ih =>
    exact ⟨⟨ih.1.1, ih.1.2.2, ih.1.2.2⟩, ih.2⟩

/-- `C9`: in every state reachable from a freshly allocated buffer of total
capacity `N ≥ 1`: `0 ≤ length ≤ N-1`, both indices lie in `[0, N)`,
`length == 0` iff `writeIndex == readIndex`, and `capacityRemaining`
equals `N - 1 - length`. -/
theorem circbuf_reachable_invariants (N : Nat) (cb : Circbuf) (hN : 1 ≤ N)
    (h : CbReach N cb) :
    0 ≤ circbuf_len cb ∧ circbuf_len cb ≤ (N : Int) - 1 ∧
    cb.write_idx < N ∧ cb.read_idx < N ∧
    (circbuf_len cb = 0 ↔ cb.write_idx = cb.read_idx) ∧
    circbuf_space_left cb = (N : Int) - 1 - circbuf_len cb := by
  obtain ⟨⟨hb, hr, hw⟩, hsz⟩ := cbreach_valid h hN
  subst hsz
  unfold circbuf_space_left circbuf_len
  split_ifs <;> refine ⟨by omega, by omega, hw, hr, ?_, by omega⟩ <;>
    constructor <;> intro h0 <;> omega

/-- Witness for `C9`: the invariants hold for a concrete reachable state,
a 3-byte buffer after one push. -/
theorem circbuf_reachable_invariants_witness :
    0 ≤ circbuf_len (circbuf_push (circbuf_alloc 3) 8).1 ∧
    circbuf_len (circbuf_push (circbuf_alloc 3) 8).1 ≤ (3 : Int) - 1 ∧
    (circbuf_push (circbuf_alloc 3) 8).1.write_idx < 3 ∧
    (circbuf_push (circbuf_alloc 3) 8).1.read_idx < 3 ∧
    (circbuf_len (circbuf_push (circbuf_alloc 3) 8).1 = 0 ↔
      (circbuf_push (circbuf_alloc 3) 8).1.write_idx =
        (circbuf_push (circbuf_alloc 3) 8).1.read_idx) ∧
    circbuf_space_left (circbuf_push (circbuf_alloc 3) 8).1 =
      (3 : Int) - 1 - circbuf_len (circbuf_push (circbuf_alloc 3) 8).1 :=
  circbuf_reachable_invariants 3 _ (by decide)
    (CbReach.push (circbuf_alloc 3) 8 CbReach.init)

/-! ## Message framing (smallchat-server.c, main loop lines 263-297) -/

/-- `READBUF_SIZE` from smallchat-server.c. -/
def READBUF_SIZE : Nat := 128

/-- `MSG_SEP` is `'\n'`. -/
def MSG_SEP : Nat := 10

/-- The extraction do-while loop
`do { circbuf_pop(cb, &readbuf[idx]); } while (readbuf[idx++] != MSG_SEP);`.
The pop's return value is discarded; a failed pop leaves `readbuf[idx]`
at its stale value, which is then tested against `MSG_SEP`.  `fails`
counts failed pops (ghost data).  The result is `none` when the loop
would index `readbuf` out of bounds, which is undefined behavior in C;
`fuel` is an artifact of termination, `rb.length + 1` always suffices. -/
def popLoopF : Nat → Circbuf → List Nat → Nat → Nat → Option (Circbuf × List Nat × Nat × Nat)
  | 0, _, _, _, _ => none
  | fuel + 1, cb, rb, idx, fails =>
    if idx < rb.length then
      let p := circbuf_pop cb (rb.getD idx 0)
      let rb' := if p.2.2 then rb.set idx p.2.1 else rb
      let fails' := if p.2.2 then fails else fails + 1
      if p.2.1 = MSG_SEP then some (p.1, rb', idx + 1, fails')
      else popLoopF fuel p.1 rb' (idx + 1) fails'
    else none

/-- One round of the `for (; sep_occur > 0; sep_occur--)` loop:
`readbuf_idx = 0`, the pop loop, then `readbuf[readbuf_idx] = '\0'`.
The extracted message is the scratch-buffer prefix before the
terminator. -/
def extractRound (cb : Circbuf) (rb : List Nat) :
    Option (List Nat × Circbuf × List Nat) :=
  match popLoopF (rb.length + 1) cb rb 0 0 with
  | none => none
  | some (cb', rb', idx, _) =>
    if idx < rb'.length then
      some ((rb'.set idx 0).take idx, cb', rb'.set idx 0)
    else none

/-- The `sep_occur` rounds of message extraction.  The scratch buffer is
threaded through: later rounds see the stale bytes of earlier ones, as in
the C code where `readbuf` is a single local array. -/
def extractRounds : Nat → Circbuf → List Nat →
    Option (List (List Nat) × Circbuf × List Nat)
  | 0, cb, rb => some ([], cb, rb)
  | k + 1, cb, rb =>
    match extractRound cb rb with
    | none => none
    | some (m, cb', rb') =>
      match extractRounds k cb' rb' with
      | none => none
      | some (ms, cb'', rb'') => some (m :: ms, cb'', rb'')

/-- The framing step for one client read (smallchat-server.c lines
263-297): count `MSG_SEP` occurrences in the raw bytes, push them into the
inbox, and if at least one separator was seen or the inbox is near full
(`space_left <= 1`), run `max(sep_occur, 1)` extraction rounds. -/
def processRead (cb : Circbuf) (rb : List Nat) (raw : List Nat) :
    Option (List (List Nat) × Circbuf × List Nat) :=
  let sep_occur := raw.count MSG_SEP
  let cb1 := (circbuf_push_from_linear cb raw).1
  if 0 < sep_occur ∨ circbuf_space_left cb1 ≤ 1 then
    extractRounds (max sep_occur 1) cb1 rb
  else
    some ([], cb1, rb)

/-! ### Helper lemmas for the framing proofs -/

theorem set_take_self {α : Type} (l : List α) (i : Nat) (a : α) :
    (l.set i a).take i = l.take i := by
  induction l generalizing i with
  | nil => rfl
  | cons x xs ih =>
    cases i with
    | zero => rfl
    | succ n => simp [List.set, ih]

theorem getD_append_length {α : Type} (A B : List α) (d : α) :
    (A ++ B).getD A.length d = B.getD 0 d := by
  induction A with
  | nil => rfl
  | cons x xs ih => simpa [List.getD_cons_succ] using ih

/-- Split a list at its first occurrence of `a`. -/
theorem exists_split_first {l : List Nat} {a : Nat} (h : a ∈ l) :
    ∃ pre rest, l = pre ++ a :: rest ∧ a ∉ pre := by
  induction l with
  | nil => cases h
  | cons x xs ih =>
    by_cases hx : x = a
    · exact ⟨[], xs, by rw [hx]; rfl, by simp⟩
    · have hmem : a ∈ xs := by
        cases List.mem_cons.mp h with
        | inl h1 => exact absurd h1.symm hx
        | inr h2 => exact h2
      obtain ⟨pre, rest, h1, h2⟩ := ih hmem
      refine ⟨x :: pre, rest, by rw [List.cons_append, ← h1], ?_⟩
      intro hc
      rcases List.mem_cons.mp hc with h3 | h3
      · exact hx h3.symm
      · exact h2 h3

/-- Behaviour of the pop loop when the buffer contains a separator: it pops
`pre ++ [MSG_SEP]` into the scratch buffer, never hits a failed pop, and
stops right after storing the separator. -/
theorem popLoopF_spec (pre : List Nat) : ∀ (fuel : Nat) (cb : Circbuf) (rb : List Nat)
    (idx fails : Nat) (rest : List Nat), Valid cb →
    content cb = pre ++ MSG_SEP :: rest → MSG_SEP ∉ pre →
    idx + pre.length + 1 ≤ rb.length → pre.length + 1 ≤ fuel →
    ∃ cb', popLoopF fuel cb rb idx fails =
      some (cb', rb.take idx ++ (pre ++ [MSG_SEP]) ++ rb.drop (idx + pre.length + 1),
        idx + pre.length + 1, fails) ∧
      Valid cb' ∧ content cb' = rest ∧ cb'.size = cb.size := by
  induction pre with
  | nil =>
    intro fuel cb rb idx fails rest hv hc hm hidx hfuel
    cases fuel with
    | zero => omega
    | succ f =>
      simp only [List.nil_append] at hc
      obtain ⟨cb1, hpop, hv1, hcont1, hsz1⟩ := circbuf_pop_cons cb (rb.getD idx 0) hv hc
      have hlt : idx < rb.length := by
        simp only [List.length_nil] at hidx
        omega
      refine ⟨cb1, ?_, hv1, hcont1, hsz1⟩
      simp only [popLoopF]
      rw [if_pos hlt, hpop]
      simp [set_eq_take_cons_drop rb idx MSG_SEP hlt]
  | cons y pre ih =>
    intro fuel cb rb idx fails rest hv hc hm hidx hfuel
    cases fuel with
    | zero =>
      simp only [List.length_cons] at hfuel
      omega
    | succ f =>
      rw [List.cons_append] at hc
      obtain ⟨cb1, hpop, hv1, hcont1, hsz1⟩ := circbuf_pop_cons cb (rb.getD idx 0) hv hc
      have hy : y ≠ MSG_SEP := fun he => hm (by rw [he]; exact List.mem_cons_self _ _)
      simp only [List.length_cons] at hidx hfuel
      have hlt : idx < rb.length := by omega
      obtain ⟨cb', hrec, hv', hcont', hsz'⟩ := ih f cb1 (rb.set idx y) (idx + 1) fails rest
        hv1 hcont1 (fun hc2 => hm (List.mem_cons_of_mem _ hc2))
        (by rw [List.length_set]; omega) (by omega)
      refine ⟨cb', ?_, hv', hcont', hsz'.trans hsz1⟩
      simp only [popLoopF]
      rw [if_pos hlt, hpop]
      simp only [List.length_cons]
      have h4 : idx + (pre.length + 1) + 1 = idx + 1 + pre.length + 1 := by omega
      rw [h4]
      rw [if_neg hy]
      simp only [if_true]
      rw [hrec, set_take_succ rb idx y hlt,
        set_drop_of_lt rb y (show idx < idx + 1 + pre.length + 1 by omega)]
      simp [List.append_assoc]

theorem take_length_append {α : Type} (A B : List α) : (A ++ B).take A.length = A := by
  induction A with
  | nil => rfl
  | cons x xs ih => simp [ih]

/-- Behaviour of one extraction round when the buffer content starts with
`pre ++ [MSG_SEP]` and the first separator fits in the scratch buffer:
the round yields message `pre ++ [MSG_SEP]` and consumes it from the
buffer. -/
theorem extractRound_spec (cb : Circbuf) (rb : List Nat) (pre rest : List Nat)
    (hv : Valid cb) (hc : content cb = pre ++ MSG_SEP :: rest) (hm : MSG_SEP ∉ pre)
    (hlen : pre.length + 1 < rb.length) :
    ∃ cb' rb', extractRound cb rb = some (pre ++ [MSG_SEP], cb', rb') ∧
      Valid cb' ∧ content cb' = rest ∧ cb'.size = cb.size ∧
      rb'.length = rb.length := by
  obtain ⟨cb1, hloop, hv1, hcont1, hsz1⟩ :=
    popLoopF_spec pre (rb.length + 1) cb rb 0 0 rest hv hc hm (by omega) (by omega)
  have hloop' : popLoopF (rb.length + 1) cb rb 0 0 =
      some (cb1, (pre ++ [MSG_SEP]) ++ rb.drop (pre.length + 1), pre.length + 1, 0) := by
    rw [hloop]
    simp
  have hL : ((pre ++ [MSG_SEP]) ++ rb.drop (pre.length + 1)).length = rb.length := by
    simp only [List.length_append, List.length_cons, List.length_nil, List.length_drop]
    omega
  refine ⟨cb1, ((pre ++ [MSG_SEP]) ++ rb.drop (pre.length + 1)).set (pre.length + 1) 0,
    ?_, hv1, hcont1, hsz1, by rw [List.length_set, hL]⟩
  unfold extractRound
  rw [hloop']
  dsimp only
  rw [if_pos (show pre.length + 1 <
      ((pre ++ [MSG_SEP]) ++ rb.drop (pre.length + 1)).length by rw [hL]; exact hlen)]
  rw [set_take_self]
  have hA : (pre ++ [MSG_SEP]).length = pre.length + 1 := by simp
  rw [← hA, take_length_append]

/-- Behaviour of `k` extraction rounds on a buffer whose content holds
exactly `k` separators and fits (strictly) in the scratch buffer: `k`
messages come out, each ending with the separator, jointly a prefix of the
content, and the unseparated residue stays in the buffer. -/
theorem extractRounds_spec : ∀ (k : Nat) (cb : Circbuf) (rb : List Nat),
    Valid cb → (content cb).count MSG_SEP = k → (content cb).length < rb.length →
    ∃ ms cb' rb', extractRounds k cb rb = some (ms, cb', rb') ∧
      ms.length = k ∧ (∀ m ∈ ms, m ≠ [] ∧ m.getLast? = some MSG_SEP) ∧
      ms.flatten ++ content cb' = content cb ∧ MSG_SEP ∉ content cb' ∧
      Valid cb' ∧ cb'.size = cb.size ∧ rb'.length = rb.length := by
  intro k
  induction k with
  | zero =>
    intro cb rb hv hcount hlen
    refine ⟨[], cb, rb, rfl, rfl, by simp, by simp, ?_, hv, rfl, rfl⟩
    exact List.count_eq_zero.mp hcount
  | succ k ih =>
    intro cb rb hv hcount hlen
    have hmem : MSG_SEP ∈ content cb := by
      by_contra hnm
      rw [List.count_eq_zero.mpr hnm] at hcount
      omega
    obtain ⟨pre, rest, hsplit, hpre⟩ := exists_split_first hmem
    have hrest : rest.count MSG_SEP = k := by
      rw [hsplit, List.count_append, List.count_cons_self,
        List.count_eq_zero.mpr hpre] at hcount
      omega
    have hlens : pre.length + 1 + rest.length = (content cb).length := by
      rw [hsplit]
      simp
      omega
    obtain ⟨cb1, rb1, hround, hv1, hcont1, hsz1, hrb1⟩ :=
      extractRound_spec cb rb pre rest hv hsplit hpre (by omega)
    obtain ⟨ms, cb', rb', hrounds, hmslen, hmsgs, hjoin, hnsep, hv', hsz', hrb'⟩ :=
      ih cb1 rb1 hv1 (by rw [hcont1]; exact hrest) (by rw [hcont1, hrb1]; omega)
    refine ⟨(pre ++ [MSG_SEP]) :: ms, cb', rb', ?_, by simp [hmslen], ?_, ?_,
      hnsep, hv', hsz'.trans hsz1, hrb'.trans hrb1⟩
    · simp only [extractRounds]
      rw [hround]
      dsimp only
      rw [hrounds]
    · intro m hm
      rcases List.mem_cons.mp hm with h1 | h1
      · subst h1
        exact ⟨by simp, List.getLast?_concat _⟩
      · exact hmsgs m h1
    · calc ((pre ++ [MSG_SEP]) :: ms).flatten ++ content cb'
          = (pre ++ [MSG_SEP]) ++ (ms.flatten ++ content cb') := by
            simp [List.append_assoc]
        _ = (pre ++ [MSG_SEP]) ++ rest := by rw [hjoin, hcont1]
        _ = content cb := by rw [hsplit]; simp

/-- `C1`: a read whose raw bytes contain exactly `k ≥ 1` separators,
arriving at an inbox that holds no separator and has remaining capacity for
all the raw bytes, makes the framing step extract exactly `k` messages,
each ending with a separator byte; the bytes after the last separator
remain in the inbox (`ms.flatten ++ content cb' = content cb ++ raw` with
no separator left in `cb'`). -/
theorem framing_extracts_k_messages (cb : Circbuf) (rb raw : List Nat)
    (hv : Valid cb) (hsz : cb.size = READBUF_SIZE) (hrb : rb.length = READBUF_SIZE)
    (hnosep : MSG_SEP ∉ content cb)
    (hk : 1 ≤ raw.count MSG_SEP)
    (hspace : (raw.length : Int) ≤ circbuf_space_left cb) :
    ∃ ms cb' rb', processRead cb rb raw = some (ms, cb', rb') ∧
      ms.length = raw.count MSG_SEP ∧
      (∀ m ∈ ms, m ≠ [] ∧ m.getLast? = some MSG_SEP) ∧
      ms.flatten ++ content cb' = content cb ++ raw ∧
      MSG_SEP ∉ content cb' := by
  have hlen := circbuf_len_eq_clen cb hv
  have hszpos : cb.read_idx < cb.size := hv.2.1
  have hclen : clen cb + raw.length ≤ cb.size - 1 := by
    unfold circbuf_space_left at hspace
    rw [hlen] at hspace
    omega
  obtain ⟨cb1, hpush, hv1, hcont1, hsz1⟩ :=
    pushLinGo_all raw cb 0 hv (by omega) (by omega)
  have hcount1 : (content cb1).count MSG_SEP = raw.count MSG_SEP := by
    rw [hcont1, List.count_append, List.count_eq_zero.mpr hnosep, Nat.zero_add]
  have hlength1 : (content cb1).length < rb.length := by
    rw [hcont1, List.length_append, length_content, hrb]
    rw [hsz] at hclen
    unfold READBUF_SIZE at hclen ⊢
    omega
  obtain ⟨ms, cb', rb', hrounds, hmslen, hmsgs, hflat, hnsep, hv', hsz', hrb'⟩ :=
    extractRounds_spec (raw.count MSG_SEP) cb1 rb hv1 hcount1 hlength1
  refine ⟨ms, cb', rb', ?_, hmslen, hmsgs, by rw [hflat, hcont1], hnsep⟩
  have hpfl : (circbuf_push_from_linear cb raw).1 = cb1 := by
    unfold circbuf_push_from_linear
    rw [hpush]
  unfold processRead
  dsimp only
  have hcond : 0 < List.count MSG_SEP raw ∨
      circbuf_space_left (circbuf_push_from_linear cb raw).1 ≤ 1 := Or.inl hk
  rw [if_pos hcond, hpfl, Nat.max_eq_left hk]
  exact hrounds

set_option maxRecDepth 8192 in
/-- Witness for `C1`: an inbox holding `[97, 98]` receiving
`"c\nd\ne" = [99, 10, 100, 10, 101]` (two separators). -/
theorem framing_extracts_k_messages_witness :
    ∃ ms cb' rb',
      processRead ⟨97 :: 98 :: List.replicate 126 0, 2, 0, 128⟩
        (List.replicate 128 0) [99, 10, 100, 10, 101] = some (ms, cb', rb') ∧
      ms.length = [99, 10, 100, 10, 101].count MSG_SEP ∧
      (∀ m ∈ ms, m ≠ [] ∧ m.getLast? = some MSG_SEP) ∧
      ms.flatten ++ content cb' =
        content ⟨97 :: 98 :: List.replicate 126 0, 2, 0, 128⟩ ++
          [99, 10, 100, 10, 101] ∧
      MSG_SEP ∉ content cb' :=
  framing_extracts_k_messages ⟨97 :: 98 :: List.replicate 126 0, 2, 0, 128⟩
    (List.replicate 128 0) [99, 10, 100, 10, 101]
    (by decide) (by decide) (by decide) (by decide) (by decide) (by decide)

set_option maxRecDepth 8192 in
/-- `C2` at the spec's own scenario, evaluated on the embedded code: a fresh
128-byte inbox offers `space_left - 1 = 126` bytes to `read`, so a client
sending 127 non-separator bytes delivers only 126; after the push the inbox
hits the forced-flush threshold (`space_left ≤ 1`), but the extraction
loop, finding no separator, drains the inbox and then scans the stale
all-zero scratch bytes past the end of the 128-byte scratch buffer: the
framing step is undefined (`none`), not one 127-byte message. -/
theorem forced_flush_stale_scan :
    circbuf_space_left (circbuf_alloc READBUF_SIZE) - 1 = 126 ∧
    (List.replicate 126 97).count MSG_SEP = 0 ∧
    circbuf_space_left
      (circbuf_push_from_linear (circbuf_alloc READBUF_SIZE)
        (List.replicate 126 97)).1 ≤ 1 ∧
    processRead (circbuf_alloc READBUF_SIZE) (List.replicate READBUF_SIZE 0)
      (List.replicate 126 97) = none :=
  ⟨by decide, by decide, by decide, by decide⟩

/-- `C10`: the do-while loop discards `circbuf_pop`'s success flag.  When
the inbox holds a separator, no pop fails (`fails = 0`), the loop stops
right after storing the first separator (`idx = pre.length + 1`, the byte
stored at `idx - 1` is `MSG_SEP`), and the terminator write at `idx` stays
inside the scratch buffer (`idx < rb.length`).  Without a separator,
termination depends on stale scratch bytes: the same 1-byte inbox makes
the loop overrun an all-zero scratch buffer (`none`), yet stop when a
stale `MSG_SEP` sits in the scratch buffer, counting one failed pop. -/
theorem pop_loop_safety_and_stale_dependence (cb : Circbuf) (rb : List Nat)
    (hv : Valid cb) (hsz : cb.size = READBUF_SIZE) (hrb : rb.length = READBUF_SIZE)
    (hsep : MSG_SEP ∈ content cb) :
    (∃ cb' rb' pre rest,
      content cb = pre ++ MSG_SEP :: rest ∧ MSG_SEP ∉ pre ∧
      popLoopF (rb.length + 1) cb rb 0 0 = some (cb', rb', pre.length + 1, 0) ∧
      pre.length + 1 < rb.length ∧
      rb'.getD pre.length 0 = MSG_SEP) ∧
    (popLoopF 5 ⟨[97, 0, 0, 0], 1, 0, 4⟩ [0, 0, 0, 0] 0 0 = none ∧
     popLoopF 5 ⟨[97, 0, 0, 0], 1, 0, 4⟩ [0, 10, 0, 0] 0 0 =
       some (⟨[97, 0, 0, 0], 1, 1, 4⟩, [97, 10, 0, 0], 2, 1)) := by
  constructor
  · obtain ⟨pre, rest, hsplit, hpre⟩ := exists_split_first hsep
    have hlen : (content cb).length = clen cb := length_content cb
    have hcl : clen cb < cb.size := clen_lt_size cb hv
    have hlens : pre.length + 1 + rest.length = (content cb).length := by
      rw [hsplit]
      simp
      omega
    rw [hsz] at hcl
    unfold READBUF_SIZE at hcl
    have hbound : 0 + pre.length + 1 ≤ rb.length := by
      rw [hrb]
      unfold READBUF_SIZE
      omega
    obtain ⟨cb', hloop, hv', hcont', hsz'⟩ :=
      popLoopF_spec pre (rb.length + 1) cb rb 0 0 rest hv hsplit hpre hbound (by omega)
    have hloop' : popLoopF (rb.length + 1) cb rb 0 0 =
        some (cb', pre ++ MSG_SEP :: rb.drop (pre.length + 1), pre.length + 1, 0) := by
      rw [hloop]
      simp
    refine ⟨cb', pre ++ MSG_SEP :: rb.drop (pre.length + 1), pre, rest,
      hsplit, hpre, hloop', ?_, ?_⟩
    · rw [hrb]
      unfold READBUF_SIZE
      omega
    · rw [getD_append_length pre (MSG_SEP :: rb.drop (pre.length + 1)) 0]
      rfl
  · exact ⟨by decide, by decide⟩

set_option maxRecDepth 8192 in
/-- Witness for `C10`: the separator-present part at a concrete inbox
holding `[97, 10]`. -/
theorem pop_loop_safety_and_stale_dependence_witness :
    (∃ cb' rb' pre rest,
      content ⟨97 :: 10 :: List.replicate 126 0, 2, 0, 128⟩ =
        pre ++ MSG_SEP :: rest ∧ MSG_SEP ∉ pre ∧
      popLoopF ((List.replicate 128 0).length + 1)
        ⟨97 :: 10 :: List.replicate 126 0, 2, 0, 128⟩
        (List.replicate 128 0) 0 0 = some (cb', rb', pre.length + 1, 0) ∧
      pre.length + 1 < (List.replicate 128 0).length ∧
      rb'.getD pre.length 0 = MSG_SEP) ∧
    (popLoopF 5 ⟨[97, 0, 0, 0], 1, 0, 4⟩ [0, 0, 0, 0] 0 0 = none ∧
     popLoopF 5 ⟨[97, 0, 0, 0], 1, 0, 4⟩ [0, 10, 0, 0] 0 0 =
       some (⟨[97, 0, 0, 0], 1, 1, 4⟩, [97, 10, 0, 0], 2, 1)) :=
  pop_loop_safety_and_stale_dependence ⟨97 :: 10 :: List.replicate 126 0, 2, 0, 128⟩
    (List.replicate 128 0) (by decide) (by decide) (by decide) (by decide)

/-! ## Client registry (smallchat-server.c data structures and
`createClient` / `freeClient` / `sendMsgToAllClientsBut`) -/

/-- `MAX_CLIENTS` from smallchat-server.c. -/
def MAX_CLIENTS : Nat := 1000

/-- `struct client`: socket descriptor, nickname, read circular buffer. -/
structure client where
  fd : Nat
  nick : String
  read_cb : Circbuf
  deriving Repr, DecidableEq

/-- `struct chatState` (the listening socket is not modelled: no registry
operation reads it).  `clients` is the slot array indexed by socket
descriptor; the C `int` counters are `Int`. -/
@[ext] structure chatState where
  numclients : Int
  maxclient : Int
  clients : List (Option client)
  deriving Repr, DecidableEq

/-- `initChat`: zeroed state with `maxclient = -1`, `numclients = 0`. -/
def initChat : chatState :=
  { numclients := 0, maxclient := -1, clients := List.replicate MAX_CLIENTS none }

/-- `createClient(fd)`: stores a fresh client (nick `"user:<fd>"`, fresh
128-byte circular buffer) in slot `fd`, raises `maxclient` if needed,
increments `numclients`.  The C code asserts the slot is free. -/
def createClient (st : chatState) (fd : Nat) : chatState :=
  let c : client := { fd := fd, nick := "user:" ++ toString fd,
                      read_cb := circbuf_alloc READBUF_SIZE }
  { numclients := st.numclients + 1,
    maxclient := if (fd : Int) > st.maxclient then (fd : Int) else st.maxclient,
    clients := st.clients.set fd (some c) }

/-- The backward scan in `freeClient`:
`for (j = maxclient-1; j >= 0; j--) if (clients[j] != NULL) break;`,
returning the new `maxclient` (`-1` when no occupied slot remains).
`scanOcc cl j` scans downward starting at slot `j`. -/
def scanOcc (cl : List (Option client)) : Nat → Int
  | 0 => if (cl.getD 0 none).isSome then 0 else -1
  | j + 1 => if (cl.getD (j + 1) none).isSome then ((j + 1 : Nat) : Int) else scanOcc cl j

/-- `freeClient` on the client in slot `fd`: clears the slot, decrements
`numclients`, and when that client held `maxclient`, rescans downward from
`maxclient - 1` (yielding `-1` when the registry became empty). -/
def freeClient (st : chatState) (fd : Nat) : chatState :=
  let cl' := st.clients.set fd none
  { numclients := st.numclients - 1,
    maxclient := if st.maxclient = (fd : Int) then
        (if fd = 0 then -1 else scanOcc cl' (fd - 1))
      else st.maxclient,
    clients := cl' }

/-- Slot `i` is occupied. -/
def occupied (st : chatState) (i : Nat) : Bool := (st.clients.getD i none).isSome

/-- Registry states reachable from startup by client registration (into a
free in-range slot, as asserted by `createClient`) and removal (of an
occupied slot). -/
inductive Reach : chatState → Prop
  | init : Reach initChat
  | register (st : chatState) (fd : Nat) : Reach st → fd < MAX_CLIENTS →
      st.clients.getD fd none = none → Reach (createClient st fd)
  | unregister (st : chatState) (fd : Nat) : Reach st →
      (st.clients.getD fd none).isSome = true → Reach (freeClient st fd)

/-- `sendMsgToAllClientsBut(excluded, s, len)`: the sequence of
`write(fd, s, len)` calls, in loop order `j = 0..maxclient`, skipping
empty slots and the excluded descriptor. -/
def sendMsgToAllClientsBut (st : chatState) (excluded : Int) (s : String) :
    List (Nat × String) :=
  (List.range ((st.maxclient + 1).toNat)).filterMap fun j =>
    match st.clients.getD j none with
    | none => none
    | some c => if (c.fd : Int) = excluded then none else some (c.fd, s)

/-! ## Command processing (smallchat-server.c lines 303-325) -/

/-- The `readbuf[0] == '/'` branch of the message handler: strip the first
`'\r'` and then the first `'\n'` (each `strchr` + `*p = 0` truncates the C
string at the first occurrence), split at the first space into command
name and argument; `/nick <arg>` replaces the nickname with `arg`
verbatim, anything else sends `"Unsupported command\n"` to the issuing
client only.  Returns the updated client and the list of `write` calls. -/
def processCommand (c : client) (readbuf : List Char) : client × List (Nat × String) :=
  let l1 := readbuf.takeWhile (fun ch => ch != '\r')
  let l2 := l1.takeWhile (fun ch => ch != '\n')
  let hasArg := l2.contains ' '
  let cmdName := if hasArg then l2.takeWhile (fun ch => ch != ' ') else l2
  let arg := (l2.dropWhile (fun ch => ch != ' ')).tail
  if cmdName == "/nick".toList && hasArg then
    ({ c with nick := String.mk arg }, [])
  else
    (c, [(c.fd, "Unsupported command\n")])

/-- `C4`: for every client, `"/nick Bob"` (with or without the trailing
separator the framer leaves in place) replaces the nickname with exactly
`"Bob"` and writes nothing; `"/nick"` with no argument and the
unrecognized `"/bogus arg"` leave the nickname unchanged and send
`"Unsupported command\n"` to the issuing client only. -/
theorem nick_command_spec (c : client) :
    processCommand c ("/nick Bob\n".toList) = ({ c with nick := "Bob" }, []) ∧
    processCommand c ("/nick Bob".toList) = ({ c with nick := "Bob" }, []) ∧
    processCommand c ("/nick\n".toList) = (c, [(c.fd, "Unsupported command\n")]) ∧
    processCommand c ("/bogus arg\n".toList) = (c, [(c.fd, "Unsupported command\n")]) := by
  obtain ⟨fd, nick, rcb⟩ := c
  exact ⟨rfl, rfl, rfl, rfl⟩

/-- Witness for `C4` at a concrete client. -/
theorem nick_command_spec_witness :
    processCommand ⟨7, "user:7", circbuf_alloc READBUF_SIZE⟩ ("/nick Bob\n".toList) =
      ({ (⟨7, "user:7", circbuf_alloc READBUF_SIZE⟩ : client) with nick := "Bob" }, []) ∧
    processCommand ⟨7, "user:7", circbuf_alloc READBUF_SIZE⟩ ("/nick\n".toList) =
      (⟨7, "user:7", circbuf_alloc READBUF_SIZE⟩, [(7, "Unsupported command\n")]) :=
  ⟨(nick_command_spec ⟨7, "user:7", circbuf_alloc READBUF_SIZE⟩).1,
   (nick_command_spec ⟨7, "user:7", circbuf_alloc READBUF_SIZE⟩).2.2.1⟩

/-! ## Registry invariants -/

/-- The inductive invariant of the registry, strong enough to be preserved
by `createClient` and `freeClient`. -/
structure RegInv (st : chatState) : Prop where
  len_eq : st.clients.length = MAX_CLIENTS
  count_eq : st.numclients = (st.clients.countP Option.isSome : Int)
  fd_eq : ∀ i c, st.clients.getD i none = some c → c.fd = i
  le_max : ∀ i, occupied st i = true → (i : Int) ≤ st.maxclient
  max_occ : st.maxclient = -1 ∨
    (0 ≤ st.maxclient ∧ st.maxclient < (MAX_CLIENTS : Int) ∧
      occupied st st.maxclient.toNat = true)

theorem getD_replicate_none (n i : Nat) :
    (List.replicate n (none : Option client)).getD i none = none := by
  induction n generalizing i with
  | zero => rfl
  | succ m ih =>
    cases i with
    | zero => rfl
    | succ k =>
      rw [List.replicate, List.getD_cons_succ]
      exact ih k

theorem countP_set_helper {α : Type} (p : α → Bool) (l : List α) (i : Nat) (x d : α)
    (h : i < l.length) :
    (l.set i x).countP p + (if p (l.getD i d) = true then 1 else 0) =
      l.countP p + (if p x = true then 1 else 0) := by
  induction l generalizing i with
  | nil => simp at h
  | cons y ys ih =>
    cases i with
    | zero => simp [List.set, List.countP_cons]; omega
    | succ n =>
      have := ih n (by simpa using h)
      simp only [List.set, List.countP_cons, List.getD_cons_succ]
      omega

theorem getD_mem_of_some (cl : List (Option client)) (i : Nat) (c : client)
    (h : cl.getD i none = some c) : some c ∈ cl := by
  induction cl generalizing i with
  | nil => exact absurd h (by simp [List.getD])
  | cons x xs ih =>
    cases i with
    | zero =>
      rw [List.getD_cons_zero] at h
      exact h ▸ List.mem_cons_self _ _
    | succ n =>
      rw [List.getD_cons_succ] at h
      exact List.mem_cons_of_mem _ (ih n h)

theorem mem_getD (cl : List (Option client)) (a : Option client) (h : a ∈ cl) :
    ∃ i, cl.getD i none = a := by
  induction cl with
  | nil => cases h
  | cons x xs ih =>
    rcases List.mem_cons.mp h with h1 | h1
    · exact ⟨0, by rw [List.getD_cons_zero, h1]⟩
    · obtain ⟨i, hi⟩ := ih h1
      exact ⟨i + 1, by rwa [List.getD_cons_succ]⟩

theorem scanOcc_zero (cl : List (Option client)) :
    scanOcc cl 0 = if (cl.getD 0 none).isSome = true then 0 else -1 := rfl

theorem scanOcc_succ (cl : List (Option client)) (j : Nat) :
    scanOcc cl (j + 1) =
      if (cl.getD (j + 1) none).isSome = true then ((j + 1 : Nat) : Int)
      else scanOcc cl j := rfl

/-- The backward scan finds the greatest occupied slot `≤ j`, or `-1`. -/
theorem scanOcc_spec (cl : List (Option client)) (j : Nat) :
    (scanOcc cl j = -1 ∧ ∀ i, i ≤ j → (cl.getD i none).isSome = false) ∨
    (∃ m, m ≤ j ∧ scanOcc cl j = (m : Int) ∧ (cl.getD m none).isSome = true ∧
      ∀ i, i ≤ j → (cl.getD i none).isSome = true → i ≤ m) := by
  induction j with
  | zero =>
    cases hb : (cl.getD 0 none).isSome with
    | false =>
      left
      refine ⟨by rw [scanOcc_zero, hb]; rfl, ?_⟩
      intro i hi
      have : i = 0 := by omega
      rwa [this]
    | true =>
      right
      exact ⟨0, Nat.le_refl 0, by rw [scanOcc_zero, hb]; rfl, hb, fun i hi _ => hi⟩
  | succ j ih =>
    cases hb : (cl.getD (j + 1) none).isSome with
    | false =>
      have hscan : scanOcc cl (j + 1) = scanOcc cl j := by
        rw [scanOcc_succ, hb]
        rfl
      rcases ih with ⟨h1, h2⟩ | ⟨m, hm1, hm2, hm3, hm4⟩
      · left
        refine ⟨hscan.trans h1, ?_⟩
        intro i hi
        by_cases hij : i = j + 1
        · rwa [hij]
        · exact h2 i (by omega)
      · right
        refine ⟨m, by omega, hscan.trans hm2, hm3, ?_⟩
        intro i hi hocc
        by_cases hij : i = j + 1
        · rw [hij] at hocc
          rw [hocc] at hb
          cases hb
        · exact hm4 i (by omega) hocc
    | true =>
      right
      exact ⟨j + 1, Nat.le_refl _, by rw [scanOcc_succ, hb]; rfl, hb, fun i hi _ => hi⟩

theorem createClient_clients (st : chatState) (fd : Nat) :
    (createClient st fd).clients =
      st.clients.set fd (some ⟨fd, "user:" ++ toString fd,
        circbuf_alloc READBUF_SIZE⟩) := rfl

theorem createClient_num (st : chatState) (fd : Nat) :
    (createClient st fd).numclients = st.numclients + 1 := rfl

theorem createClient_max (st : chatState) (fd : Nat) :
    (createClient st fd).maxclient =
      if (fd : Int) > st.maxclient then (fd : Int) else st.maxclient := rfl

theorem freeClient_clients (st : chatState) (fd : Nat) :
    (freeClient st fd).clients = st.clients.set fd none := rfl

theorem freeClient_num (st : chatState) (fd : Nat) :
    (freeClient st fd).numclients = st.numclients - 1 := rfl

theorem freeClient_max (st : chatState) (fd : Nat) :
    (freeClient st fd).maxclient =
      if st.maxclient = (fd : Int) then
        (if fd = 0 then -1 else scanOcc (st.clients.set fd none) (fd - 1))
      else st.maxclient := rfl

theorem countP_replicate_none (n : Nat) :
    (List.replicate n (none : Option client)).countP Option.isSome = 0 := by
  induction n with
  | zero => rfl
  | succ m ih => simp [List.replicate, List.countP_cons, ih]

theorem regInv_init : RegInv initChat := by
  refine ⟨by simp [initChat], ?_, ?_, ?_, Or.inl rfl⟩
  · show (0 : Int) = _
    rw [show initChat.clients = List.replicate MAX_CLIENTS none from rfl,
      countP_replicate_none]
    rfl
  · intro i c h
    rw [show initChat.clients = List.replicate MAX_CLIENTS none from rfl,
      getD_replicate_none] at h
    cases h
  · intro i h
    rw [show occupied initChat i =
        ((List.replicate MAX_CLIENTS (none : Option client)).getD i none).isSome
      from rfl, getD_replicate_none] at h
    cases h

theorem regInv_register (st : chatState) (fd : Nat) (hinv : RegInv st)
    (hfd : fd < MAX_CLIENTS) (hfree : st.clients.getD fd none = none) :
    RegInv (createClient st fd) := by
  obtain ⟨hlen, hcount, hfdeq, hle, hmax⟩ := hinv
  have hfdlen : fd < st.clients.length := by rw [hlen]; exact hfd
  set c : client := ⟨fd, "user:" ++ toString fd, circbuf_alloc READBUF_SIZE⟩ with hc
  constructor
  · rw [createClient_clients, List.length_set, hlen]
  · rw [createClient_num, createClient_clients, ← hc]
    have hcs := countP_set_helper Option.isSome st.clients fd (some c) none hfdlen
    rw [hfree] at hcs
    simp at hcs
    rw [hcount]
    omega
  · intro i c' h
    rw [createClient_clients, ← hc] at h
    by_cases hif : fd = i
    · subst hif
      rw [getD_set_self _ _ _ _ hfdlen] at h
      cases h
      rfl
    · rw [getD_set_of_ne _ _ _ hif] at h
      exact hfdeq i c' h
  · intro i h
    rw [show occupied (createClient st fd) i =
        ((createClient st fd).clients.getD i none).isSome from rfl,
      createClient_clients, ← hc] at h
    rw [createClient_max]
    by_cases hif : fd = i
    · subst hif
      split_ifs <;> omega
    · rw [getD_set_of_ne _ _ _ hif] at h
      have := hle i h
      split_ifs <;> omega
  · rw [createClient_max]
    right
    by_cases hgt : (fd : Int) > st.maxclient
    · rw [if_pos hgt]
      refine ⟨by omega, by exact_mod_cast hfd, ?_⟩
      show ((createClient st fd).clients.getD ((fd : Int).toNat) none).isSome = true
      rw [createClient_clients, ← hc, Int.toNat_natCast,
        getD_set_self _ _ _ _ hfdlen]
      rfl
    · rw [if_neg hgt]
      have hge : (fd : Int) ≤ st.maxclient := by omega
      have hmax' : 0 ≤ st.maxclient ∧ st.maxclient < (MAX_CLIENTS : Int) ∧
          occupied st st.maxclient.toNat = true := by
        rcases hmax with h1 | h1
        · omega
        · exact h1
      refine ⟨hmax'.1, hmax'.2.1, ?_⟩
      show ((createClient st fd).clients.getD (st.maxclient.toNat) none).isSome = true
      rw [createClient_clients, ← hc]
      have hne : fd ≠ st.maxclient.toNat := by
        intro he
        have : occupied st fd = true := by rw [he]; exact hmax'.2.2
        rw [show occupied st fd = (st.clients.getD fd none).isSome from rfl,
          hfree] at this
        cases this
      rw [getD_set_of_ne _ _ _ hne]
      exact hmax'.2.2

theorem regInv_unregister (st : chatState) (fd : Nat) (hinv : RegInv st)
    (hocc : (st.clients.getD fd none).isSome = true) :
    RegInv (freeClient st fd) := by
  obtain ⟨hlen, hcount, hfdeq, hle, hmax⟩ := hinv
  have hfdlen : fd < st.clients.length := by
    by_contra hge
    rw [List.getD_eq_default _ _ (by omega)] at hocc
    cases hocc
  have hfdmax : (fd : Int) ≤ st.maxclient := hle fd hocc
  have hmax' : 0 ≤ st.maxclient ∧ st.maxclient < (MAX_CLIENTS : Int) ∧
      occupied st st.maxclient.toNat = true := by
    rcases hmax with h1 | h1
    · omega
    · exact h1
  constructor
  · rw [freeClient_clients, List.length_set, hlen]
  · rw [freeClient_num, freeClient_clients]
    have hcs := countP_set_helper Option.isSome st.clients fd (none : Option client)
      none hfdlen
    rw [hocc, Option.isSome_none] at hcs
    simp at hcs
    rw [hcount]
    omega
  · intro i c' h
    rw [freeClient_clients] at h
    by_cases hif : fd = i
    · subst hif
      rw [getD_set_self _ _ _ _ hfdlen] at h
      cases h
    · rw [getD_set_of_ne _ _ _ hif] at h
      exact hfdeq i c' h
  · intro i h
    rw [show occupied (freeClient st fd) i =
        (((st.clients.set fd none)).getD i none).isSome from rfl] at h
    rw [freeClient_max]
    by_cases hif : fd = i
    · subst hif
      rw [getD_set_self _ _ _ _ hfdlen] at h
      cases h
    · rw [getD_set_of_ne _ _ _ hif] at h
      have hile := hle i h
      by_cases hMfd : st.maxclient = (fd : Int)
      · rw [if_pos hMfd]
        have hilt : i < fd := by
          have : i ≠ fd := fun he => hif he.symm
          omega
        by_cases hf0 : fd = 0
        · exact absurd hilt (by omega)
        · rw [if_neg hf0]
          have hset : ((st.clients.set fd none).getD i none).isSome = true := by
            rw [getD_set_of_ne _ _ _ hif]
            exact h
          rcases scanOcc_spec (st.clients.set fd none) (fd - 1) with
            ⟨hS, hnone⟩ | ⟨m, hm1, hm2, hm3, hm4⟩
          · have hcontra := hnone i (by omega)
            rw [hcontra] at hset
            cases hset
          · rw [hm2]
            have := hm4 i (by omega) hset
            omega
      · rw [if_neg hMfd]
        exact hile
  · rw [freeClient_max]
    by_cases hMfd : st.maxclient = (fd : Int)
    · rw [if_pos hMfd]
      by_cases hf0 : fd = 0
      · rw [if_pos hf0]
        left
        rfl
      · rw [if_neg hf0]
        rcases scanOcc_spec (st.clients.set fd none) (fd - 1) with
          ⟨hS, hnone⟩ | ⟨m, hm1, hm2, hm3, hm4⟩
        · left
          exact hS
        · right
          have hfd1000 : fd < MAX_CLIENTS := by rw [← hlen]; exact hfdlen
          refine ⟨by rw [hm2]; omega, by rw [hm2]; exact_mod_cast (by omega : m < MAX_CLIENTS), ?_⟩
          rw [show occupied (freeClient st fd) ((scanOcc (st.clients.set fd none) (fd - 1)).toNat) =
              (((st.clients.set fd none)).getD
                ((scanOcc (st.clients.set fd none) (fd - 1)).toNat) none).isSome from rfl,
            hm2, Int.toNat_natCast]
          exact hm3
    · rw [if_neg hMfd]
      right
      refine ⟨hmax'.1, hmax'.2.1, ?_⟩
      rw [show occupied (freeClient st fd) (st.maxclient.toNat) =
          (((st.clients.set fd none)).getD (st.maxclient.toNat) none).isSome from rfl]
      have hne : fd ≠ st.maxclient.toNat := by
        intro he
        apply hMfd
        omega
      rw [getD_set_of_ne _ _ _ hne]
      exact hmax'.2.2

/-- Every reachable registry state satisfies the inductive invariant. -/
theorem reach_regInv {st : chatState} (h : Reach st) : RegInv st := by
  induction h with
  | init => exact regInv_init
  | register st fd _ hfd hfree ih => exact regInv_register st fd ih hfd hfree
  | unregister st fd _ hocc ih => exact regInv_unregister st fd ih hocc

/-- `C5`: in every state reachable by register/unregister sequences from
the empty registry: `maxclient = -1` iff `numclients = 0`; every occupied
slot id is at most `maxclient`; `maxclient` is the maximum occupied id or
the `-1` sentinel; and clients in distinct slots carry distinct ids. -/
theorem registry_invariant (st : chatState) (h : Reach st) :
    (st.maxclient = -1 ↔ st.numclients = 0) ∧
    (∀ i, occupied st i = true → (i : Int) ≤ st.maxclient) ∧
    (st.maxclient = -1 ∨ (0 ≤ st.maxclient ∧ occupied st st.maxclient.toNat = true ∧
      ∀ i, occupied st i = true → (i : Int) ≤ st.maxclient)) ∧
    (∀ i j ci cj, st.clients.getD i none = some ci →
      st.clients.getD j none = some cj → i ≠ j → ci.fd ≠ cj.fd) := by
  obtain ⟨hlen, hcount, hfdeq, hle, hmax⟩ := reach_regInv h
  refine ⟨⟨?_, ?_⟩, hle, ?_, ?_⟩
  · intro hm1
    have hzero : st.clients.countP Option.isSome = 0 := by
      rw [List.countP_eq_zero]
      intro a ha
      cases a with
      | none => simp
      | some c =>
        intro _
        obtain ⟨i, hi⟩ := mem_getD st.clients (some c) ha
        have hocc : occupied st i = true := by
          rw [show occupied st i = (st.clients.getD i none).isSome from rfl, hi]
          rfl
        have hcontra := hle i hocc
        rw [hm1] at hcontra
        omega
    rw [hcount, hzero]
    rfl
  · intro hn
    rcases hmax with h1 | h1
    · exact h1
    · exfalso
      obtain ⟨c, hc⟩ := Option.isSome_iff_exists.mp h1.2.2
      have hmem := getD_mem_of_some _ _ _ hc
      have hpos : 0 < st.clients.countP Option.isSome := by
        rw [List.countP_pos_iff]
        exact ⟨some c, hmem, rfl⟩
      rw [hcount] at hn
      omega
  · rcases hmax with h1 | h1
    · exact Or.inl h1
    · exact Or.inr ⟨h1.1, h1.2.2, hle⟩
  · intro i j ci cj hi hj hij
    rw [hfdeq i ci hi, hfdeq j cj hj]
    exact hij

/-- Witness for `C5`: the sentinel iff in the reachable state with one
client in slot 3. -/
theorem registry_invariant_witness :
    ((createClient initChat 3).maxclient = -1 ↔
      (createClient initChat 3).numclients = 0) :=
  (registry_invariant _ (Reach.register initChat 3 Reach.init (by decide)
    (by rw [show initChat.clients = List.replicate MAX_CLIENTS none from rfl]
        exact getD_replicate_none _ _))).1

theorem set_none_of_getD_none (cl : List (Option client)) (i : Nat)
    (h : cl.getD i none = none) : cl.set i none = cl := by
  induction cl generalizing i with
  | nil => rfl
  | cons x xs ih =>
    cases i with
    | zero =>
      rw [List.getD_cons_zero] at h
      simp [List.set, h]
    | succ n =>
      rw [List.getD_cons_succ] at h
      simp [List.set, ih n h]

/-- `C6`: registering a fresh in-range id and then unregistering it
returns any reachable registry to exactly its previous state. -/
theorem register_unregister_roundtrip (st : chatState) (fd : Nat) (h : Reach st)
    (hfd : fd < MAX_CLIENTS) (hfree : st.clients.getD fd none = none) :
    freeClient (createClient st fd) fd = st := by
  obtain ⟨hlen, hcount, hfdeq, hle, hmax⟩ := reach_regInv h
  have hfdlen : fd < st.clients.length := by rw [hlen]; exact hfd
  have hclients : (createClient st fd).clients.set fd none = st.clients := by
    rw [createClient_clients, List.set_set]
    exact set_none_of_getD_none st.clients fd hfree
  apply chatState.ext
  · rw [freeClient_num, createClient_num]
    omega
  · rw [freeClient_max, createClient_max]
    by_cases hgt : (fd : Int) > st.maxclient
    · rw [if_pos hgt, if_pos rfl]
      by_cases hf0 : fd = 0
      · rw [if_pos hf0]
        subst hf0
        rcases hmax with h1 | h1
        · omega
        · exfalso
          omega
      · rw [if_neg hf0, hclients]
        rcases scanOcc_spec st.clients (fd - 1) with ⟨hS, hnone⟩ | ⟨m, hm1, hm2, hm3, hm4⟩
        · rw [hS]
          rcases hmax with h1 | h1
          · omega
          · exfalso
            have h2 := hnone (st.maxclient.toNat) (by omega)
            have h3 : (st.clients.getD st.maxclient.toNat none).isSome = true := h1.2.2
            rw [h2] at h3
            cases h3
        · rw [hm2]
          rcases hmax with h1 | h1
          · exfalso
            have := hle m hm3
            rw [h1] at this
            omega
          · have ha := hle m hm3
            have hb := hm4 st.maxclient.toNat (by omega) h1.2.2
            omega
    · rw [if_neg hgt]
      have hne : ¬ (st.maxclient = (fd : Int)) := by
        intro he
        rcases hmax with h1 | h1
        · omega
        · have h2 : st.maxclient.toNat = fd := by omega
          have h3 : (st.clients.getD fd none).isSome = true := by
            rw [← h2]
            exact h1.2.2
          rw [hfree] at h3
          cases h3
      rw [if_neg hne]
  · rw [freeClient_clients]
    exact hclients

/-- Witness for `C6`: register 3 into the empty registry, then unregister
it; the state is again `initChat`. -/
theorem register_unregister_roundtrip_witness :
    freeClient (createClient initChat 3) 3 = initChat :=
  register_unregister_roundtrip initChat 3 Reach.init (by decide)
    (by rw [show initChat.clients = List.replicate MAX_CLIENTS none from rfl]
        exact getD_replicate_none _ _)

theorem filterMap_eq_filter_map {α β : Type} (f : α → Option β) (p : α → Bool)
    (g : α → β) (hf : ∀ a, f a = if p a = true then some (g a) else none)
    (l : List α) : l.filterMap f = (l.filter p).map g := by
  induction l with
  | nil => rfl
  | cons x xs ih =>
    rw [List.filterMap_cons, List.filter_cons, hf x]
    cases hp : p x with
    | false => simp [hp, ih]
    | true => simp [hp, ih]

theorem sendMsg_pointwise (st : chatState)
    (hfdeq : ∀ i c, st.clients.getD i none = some c → c.fd = i)
    (e : Int) (s : String) (j : Nat) :
    (match st.clients.getD j none with
     | none => none
     | some c => if (c.fd : Int) = e then none else some (c.fd, s)) =
    if (occupied st j && !((j : Int) == e)) = true
      then some ((j, s) : Nat × String) else none := by
  cases hg : st.clients.getD j none with
  | none =>
    have hocc : occupied st j = false := by
      rw [show occupied st j = (st.clients.getD j none).isSome from rfl, hg]
      rfl
    simp [hocc]
  | some c =>
    have hc := hfdeq j c hg
    have hocc : occupied st j = true := by
      rw [show occupied st j = (st.clients.getD j none).isSome from rfl, hg]
      rfl
    by_cases he : (j : Int) = e
    · simp [hc, he, hocc]
    · simp [hc, he, hocc]

/-- Under the registry invariant, the broadcast write list is exactly the
ascending list of occupied ids up to `maxclient`, excluding `excluded`,
each paired with the text. -/
theorem sendMsg_eq (st : chatState) (h : Reach st) (e : Int) (s : String) :
    sendMsgToAllClientsBut st e s =
      ((List.range ((st.maxclient + 1).toNat)).filter
        (fun j => occupied st j && !((j : Int) == e))).map (fun j => (j, s)) := by
  obtain ⟨hlen, hcount, hfdeq, hle, hmax⟩ := reach_regInv h
  exact filterMap_eq_filter_map _ _ _ (sendMsg_pointwise st hfdeq e s) _

/-- `C3`: in every reachable registry state, `broadcast(excludeId, text)`
writes the text exactly once to every occupied id except `excludeId`,
visiting ids in strictly ascending order (`Pairwise (· < ·)` on the write
list gives both order and uniqueness); an out-of-range (negative) exclude
id delivers to every occupied client. -/
theorem broadcast_spec (st : chatState) (excluded : Int) (s : String)
    (h : Reach st) :
    (∀ j : Nat, (j, s) ∈ sendMsgToAllClientsBut st excluded s ↔
      (occupied st j = true ∧ (j : Int) ≠ excluded)) ∧
    (sendMsgToAllClientsBut st excluded s).Pairwise (fun a b => a.1 < b.1) ∧
    (excluded < 0 ∨ (MAX_CLIENTS : Int) ≤ excluded → ∀ j : Nat,
      (j, s) ∈ sendMsgToAllClientsBut st excluded s ↔ occupied st j = true) := by
  obtain ⟨hlen, hcount, hfdeq, hle, hmax⟩ := reach_regInv h
  have hre := sendMsg_eq st h excluded s
  have hmemiff : ∀ j : Nat, (j, s) ∈ sendMsgToAllClientsBut st excluded s ↔
      (occupied st j = true ∧ (j : Int) ≠ excluded) := by
    intro j
    rw [hre]
    constructor
    · intro hmem
      obtain ⟨a, hafilter, heq⟩ := List.mem_map.mp hmem
      have ha : a = j := by
        have := congrArg Prod.fst heq
        simpa using this
      subst ha
      obtain ⟨-, hpred⟩ := List.mem_filter.mp hafilter
      simp only [Bool.and_eq_true, Bool.not_eq_true', beq_eq_false_iff_ne] at hpred
      exact hpred
    · intro hj
      apply List.mem_map.mpr
      refine ⟨j, List.mem_filter.mpr ⟨?_, ?_⟩, rfl⟩
      · rw [List.mem_range]
        have := hle j hj.1
        omega
      · simp only [Bool.and_eq_true, Bool.not_eq_true', beq_eq_false_iff_ne]
        exact hj
  refine ⟨hmemiff, ?_, ?_⟩
  · rw [hre, List.pairwise_map]
    exact List.Pairwise.sublist (List.filter_sublist _) (List.pairwise_lt_range _)
  · intro hout j
    rw [hmemiff j]
    refine ⟨fun hh => hh.1, fun hocc => ⟨hocc, ?_⟩⟩
    have hjlt : j < MAX_CLIENTS := by
      by_contra hge
      have : st.clients.getD j none = none :=
        List.getD_eq_default _ _ (by rw [hlen]; omega)
      have hfalse : occupied st j = false := by
        rw [show occupied st j = (st.clients.getD j none).isSome from rfl, this]
        rfl
      rw [hfalse] at hocc
      cases hocc
    omega

/-- Witness for `C3`: registry with clients 3 and 5; excluding 3, client 5
is written to. -/
theorem broadcast_spec_witness :
    ((5 : Nat), "hi") ∈
        sendMsgToAllClientsBut (createClient (createClient initChat 3) 5) 3 "hi" ↔
      (occupied (createClient (createClient initChat 3) 5) 5 = true ∧
        ((5 : Nat) : Int) ≠ 3) :=
  (broadcast_spec (createClient (createClient initChat 3) 5) 3 "hi"
    (Reach.register _ 5
      (Reach.register initChat 3 Reach.init (by decide)
        (by rw [show initChat.clients = List.replicate MAX_CLIENTS none from rfl]
            exact getD_replicate_none _ _))
      (by decide)
      (by rfl))).1 5

end Smallchat
